import Mathlib

/-!
# EDAoogle: index builder (`mkindex.cpp`) and search handler (`HttpRequestHandler.cpp`)

A shallow embedding of the two programs of the repository.

* Text is a `String`; the character loops of the source are folds over the
  characters of the text, with the loop variables as the fold state.
* The SQLite database `index.db` is a record of its three tables, each a list
  of rows, together with the two `AUTOINCREMENT` counters.  Every SQL statement
  of the source is a function on that record.  The source assembles the text
  of a statement around a value pasted between single quotes, without
  escaping it, and hands the text over as a C string.  A value without a single
  quote and without a NUL character is read by SQLite as the string literal it
  is meant to be, and the functions here say what the statement then does.  For
  a value that holds one of the two the text is another statement, or none: what
  SQLite does with it is an argument of the functions (`Sqlite`), about which
  nothing is assumed.
* `std::map` is a list of entries kept in ascending key order, `wordIdCache`
  and the `score` table are association lists.  The iteration order of the
  `std::unordered_map` named `score` is not fixed by the language, so the
  search takes it as an argument (`IterationOrder`).
* An `int` is an `Int` kept within 32 bits (`toInt32`) where the source adds
  two `int` or reads a column with `sqlite3_column_int`.
-/

namespace EDAoogle

/-! ## Tokenizer (`mkindex.cpp`) -/

/-- One iteration of the loop of `removeHTMLTags`; the state is `(text, insideTag)`. -/
def removeHTMLTagsStep (s : String × Bool) (c : Char) : String × Bool :=
  if c = '<' then (s.1, true)
  else if c = '>' then (s.1, false)
  else if !s.2 then (s.1.push c, s.2)
  else s

/-- Source `removeHTMLTags`: drops everything between `<` and `>`. -/
def removeHTMLTags (html : String) : String :=
  (html.data.foldl removeHTMLTagsStep ("", false)).1

/-- One iteration of the loop of `extractWords`; the state is `(words, word)`. -/
def extractWordsStep (s : List String × String) (c : Char) : List String × String :=
  if c.isAlphanum then (s.1, s.2.push c.toLower)
  else if s.2 ≠ "" then (s.1 ++ [s.2], "")
  else s

/-- Source `extractWords`: the lowercased alphanumeric words of a text. -/
def extractWords (text : String) : List String :=
  let s := text.data.foldl extractWordsStep ([], "")
  if s.2 ≠ "" then s.1 ++ [s.2] else s.1

/-! ## The database `index.db` -/

/-- The three tables created by `main` and the `AUTOINCREMENT` counters of the
two tables that have one (the largest identifier the table has ever been asked
for, which a `DELETE` does not reset).  A row of `documents` is `(id, url)`, a
row of `words` is `(id, word)`, a row of `word_occurrences` is
`(word_id, document_id, frequency)`. -/
structure Store where
  documents : List (Int × String)
  documentsSeq : Nat
  words : List (Int × String)
  wordsSeq : Nat
  word_occurrences : List (Int × Int × Int)
deriving DecidableEq

/-- A database file that was just created: no rows, counters at zero. -/
def Store.fresh : Store :=
  { documents := [], documentsSeq := 0, words := [], wordsSeq := 0, word_occurrences := [] }

/-- The three `DELETE FROM` statements of `main`.  The `AUTOINCREMENT` counters
survive a `DELETE`. -/
def deleteAll (db : Store) : Store :=
  { db with documents := [], words := [], word_occurrences := [] }

/-- The single quote, the character that ends a string literal of SQL. -/
def quote : Char := Char.ofNat 39

/-- The NUL character: the text that `c_str()` hands to SQLite ends before it,
and so does a `std::string` made from a `const char*`. -/
def nul : Char := Char.ofNat 0

/-- The value holds a single quote or a NUL character.  The source pastes a
value between two single quotes without escaping it and hands the text to
SQLite as a C string, so only a value without these two characters is read by
SQLite as the string literal that the statement text is meant to hold. -/
def breaksLiteral (value : String) : Bool :=
  decide (quote ∈ value.data) || decide (nul ∈ value.data)

/-- The `std::string` made from the `const char*` of a text: the characters
before its first NUL character. -/
def cString (text : String) : String :=
  String.mk (text.data.takeWhile (fun c => c ≠ nul))

/-- What SQLite does with a statement text into which a value that holds a
single quote or a NUL character was pasted: the text is then some other
statement, or none.
Nothing is assumed about these answers.  The three answers for `sqlite3_exec`
give the database after the call (and, for a `SELECT`, the first column of
the rows handed to the callback); the answer for `sqlite3_prepare_v2` and
`sqlite3_step` gives the first column of the first row, or nothing when the
text is refused or has no row. -/
structure Sqlite where
  execInsertDocument : String → Store → Store
  execSelectDocument : String → Store → Store × List Int
  execInsertWord : String → Store → Store
  execSelectWord : String → Store → Store × List Int
  stepSelectWord : String → Store → Option Int

/-- An engine that refuses every statement text it is asked about, as SQLite
does for a text that is not a statement: the database stays as it is and there
is no row. -/
def Sqlite.refusing : Sqlite :=
  { execInsertDocument := fun _ db => db
    execSelectDocument := fun _ db => (db, [])
    execInsertWord := fun _ db => db
    execSelectWord := fun _ db => (db, [])
    stepSelectWord := fun _ _ => none }

/-- An engine that reads the pasted text of a word lookup as a condition that
holds for every row, and so answers with the first row of `words`. -/
def Sqlite.everyRow : Sqlite :=
  { execInsertDocument := fun _ db => db
    execSelectDocument := fun _ db => (db, [])
    execInsertWord := fun _ db => db
    execSelectWord := fun _ db => (db, [])
    stepSelectWord := fun _ db => (db.words.map Prod.fst).head? }

/-- The identifier that `AUTOINCREMENT` gives the next row of a table: one more
than the largest identifier the table holds or has ever been asked for. -/
def nextId (rows : List (Int × String)) (seq : Nat) : Nat :=
  max seq ((rows.map (fun r => r.1.toNat)).foldl max 0) + 1

/-- Statement `INSERT OR IGNORE INTO documents(url) VALUES('url')`: `url` is
`UNIQUE`, so no row is written when a row holds it already; otherwise the row
gets the next identifier.  The counter takes that identifier in both cases. -/
def insertOrIgnoreDocument (engine : Sqlite) (db : Store) (url : String) : Store :=
  if breaksLiteral url then engine.execInsertDocument url db
  else if db.documents.any (fun r => r.2 = url) then
    { db with documentsSeq := nextId db.documents db.documentsSeq }
  else { db with documents :=
                   db.documents ++ [(Int.ofNat (nextId db.documents db.documentsSeq), url)],
                 documentsSeq := nextId db.documents db.documentsSeq }

/-- Statement `SELECT id FROM documents WHERE url='url'`, run by `sqlite3_exec`:
the database after the call and the identifiers handed to the callback. -/
def selectDocumentIds (engine : Sqlite) (db : Store) (url : String) : Store × List Int :=
  if breaksLiteral url then engine.execSelectDocument url db
  else (db, (db.documents.filter (fun r => r.2 = url)).map Prod.fst)

/-- Statement `INSERT OR IGNORE INTO words (word) VALUES ('word')`. -/
def insertOrIgnoreWord (engine : Sqlite) (db : Store) (word : String) : Store :=
  if breaksLiteral word then engine.execInsertWord word db
  else if db.words.any (fun r => r.2 = word) then
    { db with wordsSeq := nextId db.words db.wordsSeq }
  else { db with words := db.words ++ [(Int.ofNat (nextId db.words db.wordsSeq), word)],
                 wordsSeq := nextId db.words db.wordsSeq }

/-- Statement `SELECT id FROM words WHERE word ='word'`, run by `sqlite3_exec`. -/
def selectWordIds (engine : Sqlite) (db : Store) (word : String) : Store × List Int :=
  if breaksLiteral word then engine.execSelectWord word db
  else (db, (db.words.filter (fun r => r.2 = word)).map Prod.fst)

/-- Statement `INSERT OR REPLACE INTO word_occurrences (word_id, document_id,
frequency) VALUES (...)`, its three values written out by `to_string`.  The
table is created without a `PRIMARY KEY` or `UNIQUE` constraint, so no existing
row can conflict with the new one and the statement adds a row. -/
def insertOrReplaceOccurrence (db : Store) (row : Int × Int × Int) : Store :=
  { db with word_occurrences := db.word_occurrences ++ [row] }

/-- Source `onDatabaseEntry`: the callback stores the first column of the row
(an identifier, within the range of `int`) in the integer it is given. -/
def onDatabaseEntry (_userdata : Int) (argv0 : Int) : Int := argv0

/-! ## Index builder (`mkindex.cpp`) -/

/-- The value of a 64-bit integer as an `int`: its low 32 bits, read as a
signed number.  This is what `sqlite3_column_int` hands back and what the
addition of two `int` leaves in the machine. -/
def toInt32 (x : Int) : Int := (x + 2147483648) % 4294967296 - 2147483648

/-- The statement `wordFrequency[word]++` on a `std::map<string, int>`, whose
entries are kept in ascending key order. -/
def wordFrequencyIncrement (word : String) : List (String × Int) → List (String × Int)
  | [] => [(word, toInt32 (0 + 1))]
  | (k, v) :: rest =>
    if word = k then (k, toInt32 (v + 1)) :: rest
    else if word.data < k.data then (word, toInt32 (0 + 1)) :: (k, v) :: rest
    else (k, v) :: wordFrequencyIncrement word rest

/-- The first loop of `indexDocument`: the frequency of every word. -/
def wordFrequency (words : List String) : List (String × Int) :=
  words.foldl (fun m word => wordFrequencyIncrement word m) []

/-- The state the builder works on: the database and the global `wordIdCache`. -/
structure BuildState where
  database : Store
  wordIdCache : List (String × Int)
deriving DecidableEq

/-- The body of the second loop of `indexDocument`, for one entry
`(word, frequency)` of `wordFrequency`. -/
def indexWord (engine : Sqlite) (documentId : Int) (s : BuildState) (entry : String × Int) :
    BuildState :=
  match s.wordIdCache.lookup entry.1 with
  | none =>
    let db := insertOrIgnoreWord engine s.database entry.1
    let selected := selectWordIds engine db entry.1
    let wordId := selected.2.foldl onDatabaseEntry (-1)
    { database := insertOrReplaceOccurrence selected.1 (wordId, documentId, entry.2),
      wordIdCache := (entry.1, wordId) :: s.wordIdCache }
  | some wordId =>
    { database := insertOrReplaceOccurrence s.database (wordId, documentId, entry.2),
      wordIdCache := s.wordIdCache }

/-- Source `indexDocument`.  When a statement on `documents` is refused the
error is printed and the function goes on, `documentId` still `-1`. -/
def indexDocument (engine : Sqlite) (s : BuildState) (documentUrl : String)
    (words : List String) : BuildState :=
  let db := insertOrIgnoreDocument engine s.database documentUrl
  let selected := selectDocumentIds engine db documentUrl
  let documentId := selected.2.foldl onDatabaseEntry (-1)
  (wordFrequency words).foldl (indexWord engine documentId) { s with database := selected.1 }

/-- The body of the loop of `main` for one corpus entry `(url, html)`: an entry
whose content is empty is skipped. -/
def indexEntry (engine : Sqlite) (s : BuildState) (entry : String × String) : BuildState :=
  if entry.2 = "" then s
  else indexDocument engine s entry.1 (extractWords (removeHTMLTags entry.2))

/-- The loop of `main` over a corpus of `(url, html)` entries. -/
def indexCorpus (engine : Sqlite) (s : BuildState) (corpus : List (String × String)) :
    BuildState :=
  corpus.foldl (indexEntry engine) s

/-- The state in which `main` enters its loop: the tables emptied, the cache cleared. -/
def emptyIndex (db : Store) : BuildState :=
  { database := deleteAll db, wordIdCache := [] }

/-- The database that `main` leaves, from the database `db` found on disk, for
a corpus of `(url, html)` entries: the `.html` files of the `wiki` directory
in the order the directory hands them out, each with the URL `/wiki/` followed
by its file name. -/
def buildIndex (engine : Sqlite) (db : Store) (corpus : List (String × String)) : Store :=
  (indexCorpus engine (emptyIndex db) corpus).database

/-! ## Search (`HttpRequestHandler.cpp`) -/

/-- The whitespace characters at which `iss >> word` stops. -/
def isSpace (c : Char) : Bool :=
  c = ' ' || c = '\t' || c = '\n' || c = '\x0b' || c = '\x0c' || c = '\r'

/-- One character of the input of `splitBySpaces`; the state is `(words, word)`. -/
def splitBySpacesStep (s : List String × String) (c : Char) : List String × String :=
  if isSpace c then (if s.2 ≠ "" then (s.1 ++ [s.2], "") else s)
  else (s.1, s.2.push c)

/-- Source `splitBySpaces`: the whitespace-separated words of a text. -/
def splitBySpaces (text : String) : List String :=
  let s := text.data.foldl splitBySpacesStep ([], "")
  if s.2 ≠ "" then s.1 ++ [s.2] else s.1

/-- The first query of the search loop, `SELECT id FROM words WHERE word = 'w'`
run by `sqlite3_prepare_v2` and one `sqlite3_step`: `wordId` is the first
column of the first row, read by `sqlite3_column_int`, and stays `-1` when the
text is refused or has no row. -/
def selectWordId (engine : Sqlite) (db : Store) (w : String) : Int :=
  if breaksLiteral w then
    match engine.stepSelectWord w db with
    | some id => toInt32 id
    | none => -1
  else
    match (db.words.filter (fun r => r.2 = w)).map Prod.fst with
    | id :: _ => toInt32 id
    | [] => -1

/-- The second query of the search loop: the `(url, frequency)` rows of
`word_occurrences JOIN documents ON documents.id = word_occurrences.document_id
WHERE word_occurrences.word_id = wordId`, the URL taken from the `const char*`
of `sqlite3_column_text`, the frequency read by `sqlite3_column_int`. -/
def selectPostings (db : Store) (wordId : Int) : List (String × Int) :=
  (db.word_occurrences.filter (fun o => o.1 = wordId)).flatMap (fun o =>
    (db.documents.filter (fun d => d.1 = o.2.1)).map (fun d => (cString d.2, toInt32 o.2.2)))

/-- The statement `score[url] += freq` on the table `score`. -/
def addScore (score : List (String × Int)) (row : String × Int) : List (String × Int) :=
  match score with
  | [] => [(row.1, toInt32 (0 + row.2))]
  | (url, total) :: rest =>
    if url = row.1 then (url, toInt32 (total + row.2)) :: rest
    else (url, total) :: addScore rest row

/-- The body of the search loop for one word of the query. -/
def searchWord (engine : Sqlite) (db : Store) (score : List (String × Int)) (w : String) :
    List (String × Int) :=
  let wordId := selectWordId engine db w
  if wordId ≠ -1 then (selectPostings db wordId).foldl addScore score
  else score

/-- The table `score` after the search loop of `handleRequest`. -/
def searchScore (engine : Sqlite) (db : Store) (searchString : String) : List (String × Int) :=
  (splitBySpaces searchString).foldl (searchWord engine db) []

/-- The accumulated score of a URL in a table `score`, `0` without an entry. -/
def scoreOf (score : List (String × Int)) (url : String) : Int :=
  (score.lookup url).getD 0

/-- The comparator handed to `std::sort`: `a.second > b.second`. -/
def comp (a b : String × Int) : Prop := a.2 > b.2

instance : DecidableRel comp := fun a b => inferInstanceAs (Decidable (a.2 > b.2))

/-- The order `a` before-or-equal `b` that a comparator induces: `b` is not
strictly before `a`. -/
def notAfter (a b : String × Int) : Prop := ¬ comp b a

instance : DecidableRel notAfter := fun a b => inferInstanceAs (Decidable (¬ comp b a))

instance : IsTotal (String × Int) notAfter :=
  ⟨fun a b => by
    unfold notAfter comp
    rcases le_total a.2 b.2 with h | h
    · right
      exact not_lt.2 h
    · left
      exact not_lt.2 h⟩

instance : IsTrans (String × Int) notAfter :=
  ⟨fun a b c h1 h2 => by
    unfold notAfter comp at *
    have h3 := not_lt.1 h1
    have h4 := not_lt.1 h2
    exact not_lt.2 (le_trans h4 h3)⟩

/-- The call `std::sort(docs.begin(), docs.end(), comp)`: the entries are
rearranged into an order in which no entry comes strictly before an earlier
one.  Entries that the comparator does not separate keep the order in which
they are handed in; together with an arbitrary `IterationOrder` of the table
this covers every order `std::sort` may leave them in. -/
def stdSort (docs : List (String × Int)) : List (String × Int) :=
  docs.insertionSort notAfter

/-- The order in which a `std::unordered_map` hands out its entries: some
rearrangement of them. -/
structure IterationOrder where
  iterate : List (String × Int) → List (String × Int)
  perm : ∀ l, (iterate l).Perm l

/-- The order in which the `std::unordered_map` of libstdc++ hands out a table
of two entries: the second node is linked in at the front of the list (its
bucket is empty, or holds the first node, which heads the list), so the entry
inserted last comes first. -/
def lastInsertedFirst : IterationOrder := ⟨List.reverse, fun l => List.reverse_perm l⟩

/-- The search branch of `handleRequest`: the list `results` for the query
`searchString` on the database `db`. -/
def searchResults (engine : Sqlite) (order : IterationOrder) (db : Store)
    (searchString : String) : List String :=
  (stdSort (order.iterate (searchScore engine db searchString))).map Prod.fst

/-! ## The claims in the words of the specification -/

/-- The list `runs` holds the maximal runs of the characters that satisfy `p`,
in the order in which they occur in `text`: the text is a stretch of other
characters, then, for every run in turn, the run (not empty, all its
characters satisfy `p`) followed by what remains, which is empty or starts
with a character that does not satisfy `p`. -/
inductive MaximalRuns (p : Char → Bool) : List Char → List (List Char) → Prop
  | done (sep : List Char) (hsep : ∀ c ∈ sep, p c = false) : MaximalRuns p sep []
  | run (sep r rest : List Char) (runs : List (List Char))
      (hsep : ∀ c ∈ sep, p c = false) (hne : r ≠ []) (hr : ∀ c ∈ r, p c = true)
      (hrest : ∀ c, rest.head? = some c → p c = false)
      (htail : MaximalRuns p rest runs) : MaximalRuns p (sep ++ r ++ rest) (r :: runs)

/-- The maximal runs of ASCII alphanumeric characters of a text, in order of
occurrence: the text is cut at every other character and the empty pieces
are dropped. -/
def alnumRuns (text : String) : List (List Char) :=
  (text.data.splitOnP (fun c => !c.isAlphanum)).filter (fun run => run ≠ [])

/-- The tokens of a text as the specification words them: every maximal
alphanumeric run, with every character lowercased. -/
def lowercasedRuns (text : String) : List String :=
  (alnumRuns text).map (fun run => String.mk (run.map Char.toLower))

/-- The posting frequency of a term in a document, read off the tables: the
frequencies of the rows of `word_occurrences` that link a row of `words`
holding the term with a row of `documents` holding the URL, added up; `0` for
a term that is not in the vocabulary. -/
def postingFrequency (db : Store) (w url : String) : Int :=
  ((db.words.filter (fun r => r.2 = w)).flatMap (fun r =>
    (db.word_occurrences.filter (fun o => o.1 = r.1)).flatMap (fun o =>
      (db.documents.filter (fun d => d.1 = o.2.1 ∧ d.2 = url)).map (fun _ => o.2.2)))).sum

/-- The score the specification gives a document: the sum over the distinct
terms of the query of the posting frequency of the term in the document. -/
def distinctTermsScore (db : Store) (q url : String) : Int :=
  (((splitBySpaces q).dedup).map (fun w => postingFrequency db w url)).sum

/-- The sum over every term of the query, a repeated term counted each time it
occurs, of the posting frequency of the term in the document. -/
def allTermsScore (db : Store) (q url : String) : Int :=
  ((splitBySpaces q).map (fun w => postingFrequency db w url)).sum

/-- Ties in ascending URL order: of two URLs of a result list with the same
accumulated score, the earlier one is the smaller string. -/
def TiesAscending (score : List (String × Int)) (results : List String) : Prop :=
  results.Pairwise (fun u v => scoreOf score u = scoreOf score v → u.data < v.data)

instance (score : List (String × Int)) (results : List String) :
    Decidable (TiesAscending score results) := by
  unfold TiesAscending
  infer_instance

/-! ## Auxiliary definitions -/

/-- The words a tokenizer loop hands back at the end of its input. -/
def finishWords (s : List String × String) : List String :=
  if s.2 ≠ "" then s.1 ++ [s.2] else s.1

/-- A word as the tokenizer of the index builds it: not empty, made of
lowercase ASCII letters and digits only. -/
def IsToken (w : String) : Prop :=
  w ≠ "" ∧ ∀ c ∈ w.data, c.isLower = true ∨ c.isDigit = true

/-- What the search loop adds to the score of a URL for one term of the query:
the frequencies of the rows of the second query that hold the URL, when the
first query gave an identifier; nothing when `wordId` stayed `-1`. -/
def searchedFrequency (engine : Sqlite) (db : Store) (w url : String) : Int :=
  if selectWordId engine db w ≠ -1 then
    (((selectPostings db (selectWordId engine db w)).filter (fun r => r.1 = url)).map
      Prod.snd).sum
  else 0

/-- Two engines give the same answers for the two statements on `documents`
that `indexDocument` assembles around the URL. -/
def AgreeOnDocument (engine other : Sqlite) (url : String) : Prop :=
  ∀ db, engine.execInsertDocument url db = other.execInsertDocument url db
    ∧ engine.execSelectDocument url db = other.execSelectDocument url db

/-- Two engines give the same answers for the two statements on `words` that
`indexDocument` assembles around the word. -/
def AgreeOnWord (engine other : Sqlite) (word : String) : Prop :=
  ∀ db, engine.execInsertWord word db = other.execInsertWord word db
    ∧ engine.execSelectWord word db = other.execSelectWord word db

/-- The URL of a file named `it`, quote, `s.html`. -/
def apostropheUrl : String := String.mk ("/wiki/it".data ++ [quote] ++ "s.html".data)

/-- The query made of a quote, `<>` and a quote. -/
def quotedUnequal : String := String.mk [quote, '<', '>', quote]

/-- The index of the corpus of one file `A.html` with the text cat. -/
def catIndex : Store :=
  { documents := [(1, "/wiki/A.html")], documentsSeq := 1,
    words := [(1, "cat")], wordsSeq := 1, word_occurrences := [(1, 1, 1)] }

/-- The index of the corpus of one file `A.html` with the text apple. -/
def appleIndex : Store :=
  { documents := [(1, "/wiki/A.html")], documentsSeq := 1,
    words := [(1, "apple")], wordsSeq := 1, word_occurrences := [(1, 1, 1)] }

/-! ## Tokenizer: proofs -/

theorem removeHTMLTags_inside (t : List Char) (h : '>' ∉ t) (text : String) :
    t.foldl removeHTMLTagsStep (text, true) = (text, true) := by
  induction t with
  | nil => rfl
  | cons c t ih =>
    have hc : c ≠ '>' := fun e => h (by simp [e])
    have ht : '>' ∉ t := fun e => h (List.mem_cons_of_mem _ e)
    rw [List.foldl_cons]
    have hstep : removeHTMLTagsStep (text, true) c = (text, true) := by
      unfold removeHTMLTagsStep
      by_cases h1 : c = '<'
      · simp [h1]
      · simp [h1, hc]
    rw [hstep]
    exact ih ht

theorem removeHTMLTagsStep_open (s : String × Bool) :
    removeHTMLTagsStep s '<' = (s.1, true) := by
  simp [removeHTMLTagsStep]

theorem toLower_alnum (c : Char) (h : c.isAlphanum = true) :
    c.toLower.isLower = true ∨ c.toLower.isDigit = true := by
  have key : ∀ n : Nat, 65 ≤ n → n ≤ 90 → (Char.ofNat (n + 32)).isLower = true := by
    intro n h1 h2
    interval_cases n <;> decide
  simp only [Char.isAlphanum, Char.isAlpha, Char.isUpper, Char.isLower, Char.isDigit,
    Bool.or_eq_true, Bool.and_eq_true, decide_eq_true_eq] at h
  unfold Char.toLower
  simp only []
  split
  · rename_i hn
    left
    exact key _ hn.1 hn.2
  · rename_i hn
    rcases h with (h | h) | h
    · exfalso
      apply hn
      have h1 := h.1
      have h2 := h.2
      simp only [Char.toNat, ge_iff_le, UInt32.le_def] at *
      exact ⟨h1, h2⟩
    · left
      simp only [Char.isLower, Bool.and_eq_true, decide_eq_true_eq]
      exact h
    · right
      simp only [Char.isDigit, Bool.and_eq_true, decide_eq_true_eq]
      exact h

theorem lower_or_digit_alnum (c : Char) (h : c.isLower = true ∨ c.isDigit = true) :
    c.isAlphanum = true := by
  rcases h with h | h <;> simp [Char.isAlphanum, Char.isAlpha, h]

theorem string_ne_empty_iff (w : String) : w ≠ "" ↔ w.data ≠ [] := by
  constructor
  · intro h e
    exact h (String.ext (by simpa using e))
  · intro h e
    exact h (by simp [e])

theorem modifyHead_modifyHead {α : Type} (f g : α → α) (l : List α) :
    List.modifyHead f (List.modifyHead g l) = List.modifyHead (f ∘ g) l := by
  cases l <;> rfl

theorem modifyHead_self {α : Type} (l : List α) :
    List.modifyHead (fun x => x) l = l := by
  cases l <;> rfl

theorem extractWords_loop (l : List Char) (ws : List String) (run : List Char) :
    finishWords (l.foldl extractWordsStep (ws, String.mk (run.map Char.toLower)))
      = ws ++ (((List.splitOnP (fun c => !c.isAlphanum) l).modifyHead (fun x => run ++ x)).filter
          (fun r => r ≠ [])).map (fun r => String.mk (r.map Char.toLower)) := by
  induction l generalizing ws run with
  | nil =>
    simp only [List.foldl_nil, List.splitOnP_nil, List.modifyHead, List.append_nil, finishWords]
    by_cases hr : run = []
    · subst hr
      simp
    · have h1 : String.mk (run.map Char.toLower) ≠ "" := by
        rw [string_ne_empty_iff]
        simpa using hr
      simp [h1, hr]
  | cons c l ih =>
    rw [List.foldl_cons, List.splitOnP_cons]
    by_cases hc : c.isAlphanum = true
    · have hstep : extractWordsStep (ws, String.mk (run.map Char.toLower)) c
          = (ws, String.mk ((run ++ [c]).map Char.toLower)) := by
        simp [extractWordsStep, hc, String.push]
      rw [hstep, ih]
      simp only [hc, Bool.not_true, Bool.false_eq_true, if_false, modifyHead_modifyHead]
      congr 3
      cases List.splitOnP (fun c => !c.isAlphanum) l <;> simp [List.modifyHead]
    · have hc2 : c.isAlphanum = false := by simpa using hc
      simp only [hc2, Bool.not_false, if_true, List.modifyHead]
      by_cases hr : run = []
      · subst hr
        have hstep : extractWordsStep (ws, String.mk (([] : List Char).map Char.toLower)) c
            = (ws, String.mk (([] : List Char).map Char.toLower)) := by
          simp [extractWordsStep, hc2]
        rw [hstep, ih]
        simp [modifyHead_self]
      · have h1 : String.mk (run.map Char.toLower) ≠ "" := by
          rw [string_ne_empty_iff]
          simpa using hr
        have hstep : extractWordsStep (ws, String.mk (run.map Char.toLower)) c
            = (ws ++ [String.mk (run.map Char.toLower)], String.mk (([] : List Char).map Char.toLower)) := by
          simp [extractWordsStep, hc2, h1]
        rw [hstep, ih]
        simp [hr, modifyHead_self]

theorem extractWords_eq_runs (text : String) : extractWords text = lowercasedRuns text := by
  have h := extractWords_loop text.data [] []
  simp only [List.map_nil, List.nil_append, modifyHead_self] at h
  exact h

theorem splitOnP_all_not {α : Type} (p : α → Bool) (l : List α) :
    ∀ r ∈ List.splitOnP p l, ∀ c ∈ r, p c = false := by
  induction l with
  | nil => simp
  | cons a l ih =>
    rw [List.splitOnP_cons]
    by_cases ha : p a = true
    · simp only [ha, if_true]
      intro r hr
      rcases List.mem_cons.1 hr with h | h
      · subst h
        simp
      · exact ih r h
    · have ha2 : p a = false := by simpa using ha
      simp only [ha2, Bool.false_eq_true, if_false]
      cases hs : List.splitOnP p l with
      | nil => simp [List.modifyHead]
      | cons r0 rs =>
        rw [hs] at ih
        intro r hr
        simp only [List.modifyHead, List.mem_cons] at hr
        rcases hr with h | h
        · subst h
          intro c hc
          rcases List.mem_cons.1 hc with h2 | h2
          · subst h2
            exact ha2
          · exact ih r0 (by simp) c h2
        · exact ih r (by simp [h])

theorem splitOnP_no_sep {α : Type} (p : α → Bool) (l : List α) (h : ∀ c ∈ l, p c = true) :
    ∀ r ∈ List.splitOnP p l, r = [] := by
  induction l with
  | nil => simp
  | cons a l ih =>
    rw [List.splitOnP_cons]
    have ha : p a = true := h a (by simp)
    simp only [ha, if_true]
    intro r hr
    rcases List.mem_cons.1 hr with h1 | h1
    · exact h1
    · exact ih (fun c hc => h c (List.mem_cons_of_mem _ hc)) r h1

theorem extractWords_isToken (text : String) : ∀ w ∈ extractWords text, IsToken w := by
  intro w hw
  rw [extractWords_eq_runs] at hw
  simp only [lowercasedRuns, alnumRuns, List.mem_map, List.mem_filter] at hw
  obtain ⟨r, ⟨hr, hne⟩, rfl⟩ := hw
  have hne2 : r ≠ [] := by simpa using hne
  constructor
  · rw [string_ne_empty_iff]
    simpa using hne2
  · intro c hc
    simp only [List.mem_map] at hc
    obtain ⟨d, hd, rfl⟩ := hc
    have := splitOnP_all_not _ _ r hr d hd
    exact toLower_alnum d (by simpa using this)

theorem extractWords_no_alnum (text : String) (h : ∀ c ∈ text.data, c.isAlphanum = false) :
    extractWords text = [] := by
  rw [extractWords_eq_runs]
  simp only [lowercasedRuns, alnumRuns, List.map_eq_nil_iff, List.filter_eq_nil_iff]
  intro r hr
  have := splitOnP_no_sep (fun c => !c.isAlphanum) text.data (by
    intro c hc
    simp [h c hc]) r hr
  simp [this]

/-! ## Maximal runs: proofs -/

theorem maximalRuns_cons_sep (p : Char → Bool) (a : Char) (ha : p a = false)
    (l : List Char) (runs : List (List Char)) (h : MaximalRuns p l runs) :
    MaximalRuns p (a :: l) runs := by
  cases h with
  | done sep hsep =>
    apply MaximalRuns.done
    intro c hc
    rcases List.mem_cons.1 hc with h1 | h1
    · rw [h1]
      exact ha
    · exact hsep c h1
  | run sep r rest runs hsep hne hr hrest htail =>
    have := MaximalRuns.run (a :: sep) r rest runs (by
      intro c hc
      rcases List.mem_cons.1 hc with h1 | h1
      · rw [h1]
        exact ha
      · exact hsep c h1) hne hr hrest htail
    simpa using this

theorem splitOnP_decompose (p : Char → Bool) (l : List Char) :
    ∀ h t, List.splitOnP (fun c => !p c) l = h :: t →
      (∀ c ∈ h, p c = true)
      ∧ ∃ rest, l = h ++ rest ∧ (∀ c, rest.head? = some c → p c = false)
          ∧ MaximalRuns p rest (t.filter (fun r => r ≠ [])) := by
  induction l with
  | nil =>
    intro h t hs
    rw [List.splitOnP_nil] at hs
    have e1 : h = [] := (List.cons.inj hs).1.symm
    have e2 : t = [] := (List.cons.inj hs).2.symm
    subst e1 e2
    refine ⟨by simp, [], by simp, by simp, ?_⟩
    exact MaximalRuns.done [] (by simp)
  | cons a l ih =>
    intro h t hs
    rw [List.splitOnP_cons] at hs
    cases hsl : List.splitOnP (fun c => !p c) l with
    | nil => exact absurd hsl (List.splitOnP_ne_nil _ l)
    | cons h2 t2 =>
      obtain ⟨k1, rest2, k2, k3, k4⟩ := ih h2 t2 hsl
      rw [hsl] at hs
      by_cases ha : p a = true
      · simp only [ha, Bool.not_true, Bool.false_eq_true, if_false, List.modifyHead] at hs
        have e1 : h = a :: h2 := (List.cons.inj hs).1.symm
        have e2 : t = t2 := (List.cons.inj hs).2.symm
        subst e1 e2
        refine ⟨?_, rest2, ?_, k3, k4⟩
        · intro c hc
          rcases List.mem_cons.1 hc with h1 | h1
          · rw [h1]
            exact ha
          · exact k1 c h1
        · rw [k2]
          rfl
      · have ha2 : p a = false := by simpa using ha
        simp only [ha2, Bool.not_false, if_true] at hs
        have e1 : h = [] := (List.cons.inj hs).1.symm
        have e2 : t = h2 :: t2 := (List.cons.inj hs).2.symm
        subst e1 e2
        refine ⟨by simp, a :: l, by simp, ?_, ?_⟩
        · intro c hc
          simp only [List.head?_cons, Option.some.injEq] at hc
          rw [← hc]
          exact ha2
        · by_cases hh : h2 = []
          · subst hh
            simp only [List.nil_append] at k2
            rw [k2]
            simp only [List.filter_cons, ne_eq, not_true_eq_false, decide_False,
              Bool.false_eq_true, if_false]
            exact maximalRuns_cons_sep p a ha2 rest2 _ k4
          · have := MaximalRuns.run [a] h2 rest2 (t2.filter (fun r => r ≠ []))
              (by
                intro c hc
                rw [List.mem_singleton] at hc
                rw [hc]
                exact ha2) hh k1 k3 k4
            rw [k2]
            simpa [List.filter_cons, hh] using this

theorem alnumRuns_maximal (text : String) :
    MaximalRuns (fun c => c.isAlphanum) text.data (alnumRuns text) := by
  unfold alnumRuns
  cases hs : List.splitOnP (fun c => !c.isAlphanum) text.data with
  | nil => exact absurd hs (List.splitOnP_ne_nil _ _)
  | cons h t =>
    obtain ⟨k1, rest, k2, k3, k4⟩ := splitOnP_decompose (fun c => c.isAlphanum) text.data h t hs
    rw [k2]
    by_cases hh : h = []
    · subst hh
      simpa using k4
    · have := MaximalRuns.run [] h rest (t.filter (fun r => r ≠ [])) (by simp) hh k1 k3 k4
      simpa [List.filter_cons, hh] using this

theorem filter_splitOnP_sep (q : Char → Bool) (sep l : List Char)
    (hsep : ∀ c ∈ sep, q c = true) :
    (List.splitOnP q (sep ++ l)).filter (fun r => r ≠ [])
      = (List.splitOnP q l).filter (fun r => r ≠ []) := by
  induction sep with
  | nil => rfl
  | cons a sep ih =>
    have ha : q a = true := hsep a (by simp)
    rw [List.cons_append, List.splitOnP_cons]
    simp only [ha, if_true, List.filter_cons, ne_eq, not_true_eq_false, decide_False,
      Bool.false_eq_true, if_false]
    exact ih (fun c hc => hsep c (List.mem_cons_of_mem _ hc))

theorem splitOnP_run (q : Char → Bool) (r l : List Char) (hr : ∀ c ∈ r, q c = false) :
    List.splitOnP q (r ++ l) = (List.splitOnP q l).modifyHead (fun x => r ++ x) := by
  induction r with
  | nil =>
    simp only [List.nil_append]
    exact (modifyHead_self _).symm
  | cons a r ih =>
    have ha : q a = false := hr a (by simp)
    rw [List.cons_append, List.splitOnP_cons, ih (fun c hc => hr c (List.mem_cons_of_mem _ hc))]
    simp only [ha, Bool.false_eq_true, if_false, modifyHead_modifyHead]
    rfl

theorem maximalRuns_unique (p : Char → Bool) (l : List Char) (runs : List (List Char))
    (h : MaximalRuns p l runs) :
    runs = (List.splitOnP (fun c => !p c) l).filter (fun r => r ≠ []) := by
  induction h with
  | done sep hsep =>
    symm
    rw [List.filter_eq_nil_iff]
    intro r hr
    have := splitOnP_no_sep (fun c => !p c) sep (by
      intro c hc
      simp [hsep c hc]) r hr
    simp [this]
  | run sep r rest runs hsep hne hr hrest htail ih =>
    rw [List.append_assoc, filter_splitOnP_sep _ sep (r ++ rest) (by
      intro c hc
      simp [hsep c hc]), splitOnP_run _ r rest (by
      intro c hc
      simp [hr c hc])]
    cases rest with
    | nil =>
      rw [List.splitOnP_nil] at ih ⊢
      simp only [List.modifyHead, List.append_nil, List.filter_cons, ne_eq, hne,
        not_false_eq_true, decide_True, if_true, List.filter_nil]
      rw [ih]
      simp
    | cons c rest =>
      have hc : p c = false := hrest c (by simp)
      rw [List.splitOnP_cons] at ih ⊢
      simp only [hc, Bool.not_false, if_true] at ih ⊢
      simp only [List.modifyHead, List.append_nil, List.filter_cons, ne_eq, hne,
        not_false_eq_true, decide_True, if_true]
      rw [ih]
      simp

theorem helloWorld_runs :
    MaximalRuns (fun c => c.isAlphanum) "Hello World!".data ["Hello".data, "World".data] := by
  have h3 : MaximalRuns (fun c => c.isAlphanum) ['!'] [] :=
    MaximalRuns.done _ (by decide)
  have h2 : MaximalRuns (fun c => c.isAlphanum) ([' '] ++ "World".data ++ ['!'])
      ["World".data] :=
    MaximalRuns.run _ _ _ _ (by decide) (by decide) (by decide)
      (by
        intro c hc
        have e : c = '!' := by simpa using hc.symm
        rw [e]
        decide) h3
  have h1 : MaximalRuns (fun c => c.isAlphanum)
      ([] ++ "Hello".data ++ ([' '] ++ "World".data ++ ['!']))
      ["Hello".data, "World".data] :=
    MaximalRuns.run _ _ _ _ (by decide) (by decide) (by decide)
      (by
        intro c hc
        have e : c = ' ' := by simpa using hc.symm
        rw [e]
        decide) h2
  exact h1

/-- C4: for every text, extractWords returns exactly the maximal runs of ASCII
alphanumeric characters of the text, in order of occurrence and with
duplicates, each run lowercased: whatever list holds the maximal runs, the
result is that list lowercased, and the runs obtained by cutting the text at
every other character are such a list.  Every token is non-empty and made of
lowercase letters and digits only; a text without an alphanumeric character
yields no token; the tokens of the stripped text of `<b>Hello</b> World!` are
hello and world. -/
theorem extractWords_maximal_runs (text : String) :
    (∀ runs, MaximalRuns (fun c => c.isAlphanum) text.data runs →
        extractWords text = runs.map (fun r => String.mk (r.map Char.toLower)))
    ∧ MaximalRuns (fun c => c.isAlphanum) text.data (alnumRuns text)
    ∧ extractWords text = lowercasedRuns text
    ∧ (∀ w ∈ extractWords text, w ≠ "" ∧ ∀ c ∈ w.data, c.isLower = true ∨ c.isDigit = true)
    ∧ ((∀ c ∈ text.data, c.isAlphanum = false) → extractWords text = [])
    ∧ extractWords (removeHTMLTags "<b>Hello</b> World!") = ["hello", "world"] := by
  refine ⟨?_, alnumRuns_maximal text, extractWords_eq_runs text, extractWords_isToken text,
    extractWords_no_alnum text, by decide⟩
  intro runs hruns
  rw [extractWords_eq_runs, maximalRuns_unique _ _ _ hruns]
  rfl

theorem extractWords_maximal_runs_witness :
    MaximalRuns (fun c => c.isAlphanum) "Hello World!".data ["Hello".data, "World".data]
    ∧ extractWords "Hello World!"
        = ["Hello".data, "World".data].map (fun r => String.mk (r.map Char.toLower))
    ∧ extractWords "Hello World!" = ["hello", "world"] :=
  ⟨helloWorld_runs, (extractWords_maximal_runs "Hello World!").1 _ helloWorld_runs, by decide⟩

/-- C10: removeHTMLTags drops everything after an unclosed tag: when t holds no
closing bracket, the text of s followed by an opening bracket and t is the
text of s. -/
theorem removeHTMLTags_unclosed (s t : String) (h : '>' ∉ t.data) :
    removeHTMLTags (s ++ "<" ++ t) = removeHTMLTags s := by
  unfold removeHTMLTags
  have hd : (s ++ "<" ++ t).data = s.data ++ ('<' :: t.data) := by
    simp [String.data_append]
  rw [hd, List.foldl_append, List.foldl_cons, removeHTMLTagsStep_open,
    removeHTMLTags_inside t.data h]

theorem removeHTMLTags_unclosed_witness :
    '>' ∉ "a href".data
    ∧ removeHTMLTags ("one <b>two</b> " ++ "<" ++ "a href") = removeHTMLTags "one <b>two</b> " :=
  ⟨by decide, removeHTMLTags_unclosed "one <b>two</b> " "a href" (by decide)⟩

/-! ## Score table: proofs -/

theorem addScore_keys (score : List (String × Int)) (row : String × Int) :
    (addScore score row).map Prod.fst
      = if row.1 ∈ score.map Prod.fst then score.map Prod.fst
        else score.map Prod.fst ++ [row.1] := by
  induction score with
  | nil => simp [addScore]
  | cons e rest ih =>
    obtain ⟨u, v⟩ := e
    unfold addScore
    by_cases h : u = row.1
    · simp [h]
    · have h2 : ¬ row.1 = u := fun e => h e.symm
      simp only [h, if_false, List.map_cons, ih, List.mem_cons, h2, false_or]
      by_cases h3 : row.1 ∈ rest.map Prod.fst
      · simp [h3]
      · simp [h3]

theorem addScore_nodup (score : List (String × Int)) (row : String × Int)
    (h : (score.map Prod.fst).Nodup) : ((addScore score row).map Prod.fst).Nodup := by
  rw [addScore_keys]
  by_cases h3 : row.1 ∈ score.map Prod.fst
  · simpa [h3] using h
  · simp only [h3, if_false]
    exact List.Nodup.append h (List.nodup_singleton _) (by
      intro x hx hx2
      rw [List.mem_singleton] at hx2
      exact h3 (hx2 ▸ hx))

theorem foldl_addScore_nodup (rows score : List (String × Int))
    (h : (score.map Prod.fst).Nodup) : ((rows.foldl addScore score).map Prod.fst).Nodup := by
  induction rows generalizing score with
  | nil => simpa using h
  | cons r rows ih =>
    rw [List.foldl_cons]
    exact ih _ (addScore_nodup score r h)

theorem searchWord_nodup (engine : Sqlite) (db : Store) (score : List (String × Int))
    (w : String) (h : (score.map Prod.fst).Nodup) :
    ((searchWord engine db score w).map Prod.fst).Nodup := by
  unfold searchWord
  by_cases h1 : selectWordId engine db w = -1
  · simpa [h1] using h
  · simp only [ne_eq, h1, not_false_eq_true, if_true]
    exact foldl_addScore_nodup _ _ h

theorem foldl_searchWord_nodup (engine : Sqlite) (db : Store) (ws : List String)
    (score : List (String × Int)) (h : (score.map Prod.fst).Nodup) :
    ((ws.foldl (searchWord engine db) score).map Prod.fst).Nodup := by
  induction ws generalizing score with
  | nil => simpa using h
  | cons w ws ih =>
    rw [List.foldl_cons]
    exact ih _ (searchWord_nodup engine db score w h)

theorem searchScore_nodup (engine : Sqlite) (db : Store) (q : String) :
    ((searchScore engine db q).map Prod.fst).Nodup :=
  foldl_searchWord_nodup engine db _ [] (by simp)

theorem scoreOf_nil (t : String) : scoreOf [] t = 0 := rfl

theorem scoreOf_cons_self (k : String) (v : Int) (rest : List (String × Int)) :
    scoreOf ((k, v) :: rest) k = v := by
  simp [scoreOf, List.lookup]

theorem scoreOf_cons_ne (k t : String) (v : Int) (rest : List (String × Int)) (h : t ≠ k) :
    scoreOf ((k, v) :: rest) t = scoreOf rest t := by
  have h3 : (t == k) = false := by simpa using h
  simp [scoreOf, List.lookup, h3]

theorem scoreOf_of_mem (score : List (String × Int)) (h : (score.map Prod.fst).Nodup)
    (e : String × Int) (he : e ∈ score) : scoreOf score e.1 = e.2 := by
  induction score with
  | nil => simp at he
  | cons x rest ih =>
    obtain ⟨u, v⟩ := x
    simp only [List.map_cons, List.nodup_cons] at h
    rcases List.mem_cons.1 he with h1 | h1
    · subst h1
      exact scoreOf_cons_self _ _ _
    · have hne : e.1 ≠ u := by
        intro heq
        apply h.1
        rw [← heq]
        exact List.mem_map_of_mem Prod.fst h1
      rw [scoreOf_cons_ne _ _ _ _ hne]
      exact ih h.2 h1

/-! ## Ranking: proofs -/

theorem stdSort_perm (docs : List (String × Int)) : (stdSort docs).Perm docs :=
  List.perm_insertionSort notAfter docs

theorem stdSort_sorted (docs : List (String × Int)) : (stdSort docs).Sorted notAfter :=
  List.sorted_insertionSort notAfter docs

theorem ranked_perm (engine : Sqlite) (order : IterationOrder) (db : Store) (q : String) :
    (stdSort (order.iterate (searchScore engine db q))).Perm (searchScore engine db q) :=
  (stdSort_perm _).trans (order.perm _)

theorem searchResults_perm (engine : Sqlite) (order : IterationOrder) (db : Store)
    (q : String) :
    (searchResults engine order db q).Perm ((searchScore engine db q).map Prod.fst) :=
  (ranked_perm engine order db q).map Prod.fst

theorem searchResults_sorted (engine : Sqlite) (order : IterationOrder) (db : Store)
    (q : String) :
    (searchResults engine order db q).Pairwise
      (fun u v => scoreOf (searchScore engine db q) u ≥ scoreOf (searchScore engine db q) v) := by
  unfold searchResults
  rw [List.pairwise_map]
  have hs := stdSort_sorted (order.iterate (searchScore engine db q))
  have hp := ranked_perm engine order db q
  refine List.Pairwise.imp_of_mem ?_ hs
  intro a b ha hb hab
  have ha2 := scoreOf_of_mem _ (searchScore_nodup engine db q) a (hp.subset ha)
  have hb2 := scoreOf_of_mem _ (searchScore_nodup engine db q) b (hp.subset hb)
  rw [ha2, hb2]
  unfold notAfter comp at hab
  exact not_lt.1 hab

theorem perm_pair {α : Type} (l : List α) (a b : α) (h : l.Perm [a, b]) :
    l = [a, b] ∨ l = [b, a] := by
  have hl := h.length_eq
  match l, hl with
  | [x, y], _ =>
    have hx : x ∈ [a, b] := h.subset (by simp)
    have hy : y ∈ [a, b] := h.subset (by simp)
    have ha : a ∈ [x, y] := h.symm.subset (by simp)
    have hb : b ∈ [x, y] := h.symm.subset (by simp)
    simp only [List.mem_cons, List.mem_singleton, List.not_mem_nil, or_false] at hx hy ha hb
    rcases hx with rfl | rfl <;> rcases hy with rfl | rfl
    · rcases hb with rfl | rfl <;> simp
    · simp
    · simp
    · rcases ha with rfl | rfl <;> simp

theorem searchResults_of_empty (engine : Sqlite) (order : IterationOrder) (db : Store)
    (q : String) (h : searchScore engine db q = []) : searchResults engine order db q = [] := by
  unfold searchResults
  rw [h]
  have := order.perm []
  rw [List.perm_nil] at this
  rw [this]
  rfl

/-! ## Values without a quote or a NUL character: proofs -/

theorem quote_not_lower_or_digit (c : Char) (h : c.isLower = true ∨ c.isDigit = true) :
    c ≠ quote ∧ c ≠ nul := by
  constructor
  · intro e
    rw [e] at h
    revert h
    decide
  · intro e
    rw [e] at h
    revert h
    decide

theorem breaksLiteral_false_iff (value : String) :
    breaksLiteral value = false ↔ ∀ c ∈ value.data, c ≠ quote ∧ c ≠ nul := by
  unfold breaksLiteral
  rw [Bool.or_eq_false_iff, decide_eq_false_iff_not, decide_eq_false_iff_not]
  constructor
  · intro h c hc
    exact ⟨fun e => h.1 (e ▸ hc), fun e => h.2 (e ▸ hc)⟩
  · intro h
    exact ⟨fun hq => (h quote hq).1 rfl, fun hn => (h nul hn).2 rfl⟩

theorem token_plain (w : String) (h : IsToken w) : breaksLiteral w = false := by
  rw [breaksLiteral_false_iff]
  intro c hc
  exact quote_not_lower_or_digit c (h.2 c hc)

theorem cString_of_no_nul (text : String) (h : nul ∉ text.data) : cString text = text := by
  unfold cString
  have : text.data.takeWhile (fun c => decide (c ≠ nul)) = text.data := by
    rw [List.takeWhile_eq_self_iff]
    intro c hc
    have : c ≠ nul := fun e => h (e ▸ hc)
    simpa using this
  rw [this]

theorem selectWordId_agree (engine other : Sqlite) (db : Store) (w : String)
    (h : breaksLiteral w = false ∨ engine.stepSelectWord w db = other.stepSelectWord w db) :
    selectWordId engine db w = selectWordId other db w := by
  unfold selectWordId
  by_cases hq : breaksLiteral w = true
  · rcases h with h | h
    · rw [h] at hq
      exact absurd hq (by decide)
    · simp only [hq, if_true, h]
  · simp only [hq, Bool.false_eq_true, if_false]

theorem searchWord_agree (engine other : Sqlite) (db : Store) (score : List (String × Int))
    (w : String)
    (h : breaksLiteral w = false ∨ engine.stepSelectWord w db = other.stepSelectWord w db) :
    searchWord engine db score w = searchWord other db score w := by
  unfold searchWord
  rw [selectWordId_agree engine other db w h]

theorem foldl_searchWord_agree (engine other : Sqlite) (db : Store) (ws : List String)
    (score : List (String × Int))
    (h : ∀ w ∈ ws, breaksLiteral w = false ∨ engine.stepSelectWord w db = other.stepSelectWord w db) :
    ws.foldl (searchWord engine db) score = ws.foldl (searchWord other db) score := by
  induction ws generalizing score with
  | nil => rfl
  | cons w ws ih =>
    rw [List.foldl_cons, List.foldl_cons, searchWord_agree engine other db score w (h w (by simp))]
    exact ih _ (fun x hx => h x (List.mem_cons_of_mem _ hx))

theorem searchScore_agree (engine other : Sqlite) (db : Store) (q : String)
    (h : ∀ w ∈ splitBySpaces q,
      breaksLiteral w = false ∨ engine.stepSelectWord w db = other.stepSelectWord w db) :
    searchScore engine db q = searchScore other db q :=
  foldl_searchWord_agree engine other db _ [] h

/-! ## Index builder and the engine: proofs -/

theorem insertOrIgnoreDocument_agree (engine other : Sqlite) (db : Store) (url : String)
    (h : breaksLiteral url = false ∨ AgreeOnDocument engine other url) :
    insertOrIgnoreDocument engine db url = insertOrIgnoreDocument other db url := by
  unfold insertOrIgnoreDocument
  by_cases hq : breaksLiteral url = true
  · rcases h with h | h
    · rw [h] at hq
      exact absurd hq (by decide)
    · simp only [hq, if_true, (h db).1]
  · simp only [hq, Bool.false_eq_true, if_false]

theorem selectDocumentIds_agree (engine other : Sqlite) (db : Store) (url : String)
    (h : breaksLiteral url = false ∨ AgreeOnDocument engine other url) :
    selectDocumentIds engine db url = selectDocumentIds other db url := by
  unfold selectDocumentIds
  by_cases hq : breaksLiteral url = true
  · rcases h with h | h
    · rw [h] at hq
      exact absurd hq (by decide)
    · simp only [hq, if_true, (h db).2]
  · simp only [hq, Bool.false_eq_true, if_false]

theorem insertOrIgnoreWord_agree (engine other : Sqlite) (db : Store) (word : String)
    (h : breaksLiteral word = false ∨ AgreeOnWord engine other word) :
    insertOrIgnoreWord engine db word = insertOrIgnoreWord other db word := by
  unfold insertOrIgnoreWord
  by_cases hq : breaksLiteral word = true
  · rcases h with h | h
    · rw [h] at hq
      exact absurd hq (by decide)
    · simp only [hq, if_true, (h db).1]
  · simp only [hq, Bool.false_eq_true, if_false]

theorem selectWordIds_agree (engine other : Sqlite) (db : Store) (word : String)
    (h : breaksLiteral word = false ∨ AgreeOnWord engine other word) :
    selectWordIds engine db word = selectWordIds other db word := by
  unfold selectWordIds
  by_cases hq : breaksLiteral word = true
  · rcases h with h | h
    · rw [h] at hq
      exact absurd hq (by decide)
    · simp only [hq, if_true, (h db).2]
  · simp only [hq, Bool.false_eq_true, if_false]

theorem indexWord_agree (engine other : Sqlite) (did : Int) (s : BuildState)
    (entry : String × Int)
    (h : breaksLiteral entry.1 = false ∨ AgreeOnWord engine other entry.1) :
    indexWord engine did s entry = indexWord other did s entry := by
  unfold indexWord
  simp only [insertOrIgnoreWord_agree engine other _ _ h, selectWordIds_agree engine other _ _ h]

theorem indexWords_agree (engine other : Sqlite) (did : Int) (entries : List (String × Int))
    (s : BuildState)
    (h : ∀ e ∈ entries, breaksLiteral e.1 = false ∨ AgreeOnWord engine other e.1) :
    entries.foldl (indexWord engine did) s = entries.foldl (indexWord other did) s := by
  induction entries generalizing s with
  | nil => rfl
  | cons e entries ih =>
    rw [List.foldl_cons, List.foldl_cons, indexWord_agree engine other did s e (h e (by simp))]
    exact ih _ (fun x hx => h x (List.mem_cons_of_mem _ hx))

theorem wordFrequencyIncrement_keys (w : String) (m : List (String × Int)) :
    ∀ e ∈ wordFrequencyIncrement w m, e.1 = w ∨ ∃ x ∈ m, x.1 = e.1 := by
  induction m with
  | nil =>
    intro e he
    simp only [wordFrequencyIncrement, List.mem_singleton] at he
    left
    rw [he]
  | cons x rest ih =>
    obtain ⟨k, v⟩ := x
    intro e he
    unfold wordFrequencyIncrement at he
    by_cases h1 : w = k
    · simp only [h1, if_true, List.mem_cons] at he
      rcases he with h | h
      · right
        exact ⟨(k, v), by simp, by rw [h]⟩
      · right
        exact ⟨e, by simp [h], rfl⟩
    · by_cases h2 : w.data < k.data
      · simp only [h1, if_false, h2, if_true, List.mem_cons] at he
        rcases he with h | h | h
        · left
          rw [h]
        · right
          exact ⟨(k, v), by simp, by rw [h]⟩
        · right
          exact ⟨e, by simp [h], rfl⟩
      · simp only [h1, if_false, h2, List.mem_cons] at he
        rcases he with h | h
        · right
          exact ⟨(k, v), by simp, by rw [h]⟩
        · rcases ih e h with h3 | ⟨y, hy, hy2⟩
          · left
            exact h3
          · right
            exact ⟨y, by simp [hy], hy2⟩

theorem wordFrequency_loop_keys (ws : List String) (m : List (String × Int)) :
    ∀ e ∈ ws.foldl (fun m word => wordFrequencyIncrement word m) m,
      e.1 ∈ ws ∨ ∃ x ∈ m, x.1 = e.1 := by
  induction ws generalizing m with
  | nil =>
    intro e he
    exact Or.inr ⟨e, he, rfl⟩
  | cons w ws ih =>
    intro e he
    rw [List.foldl_cons] at he
    rcases ih _ e he with h | ⟨x, hx, hx2⟩
    · exact Or.inl (List.mem_cons_of_mem _ h)
    · rcases wordFrequencyIncrement_keys w m x hx with h3 | ⟨y, hy, hy2⟩
      · left
        rw [← hx2, h3]
        simp
      · exact Or.inr ⟨y, hy, hy2.trans hx2⟩

theorem wordFrequency_keys (ws : List String) : ∀ e ∈ wordFrequency ws, e.1 ∈ ws := by
  intro e he
  rcases wordFrequency_loop_keys ws [] e he with h | ⟨x, hx, _⟩
  · exact h
  · simp at hx

theorem indexDocument_agree (engine other : Sqlite) (s : BuildState) (url : String)
    (ws : List String)
    (hurl : breaksLiteral url = false ∨ AgreeOnDocument engine other url)
    (hws : ∀ w ∈ ws, breaksLiteral w = false ∨ AgreeOnWord engine other w) :
    indexDocument engine s url ws = indexDocument other s url ws := by
  unfold indexDocument
  simp only [insertOrIgnoreDocument_agree engine other _ _ hurl,
    selectDocumentIds_agree engine other _ _ hurl]
  exact indexWords_agree engine other _ _ _
    (fun e he => hws e.1 (wordFrequency_keys ws e he))

theorem indexDocument_plain (engine other : Sqlite) (s : BuildState) (url : String)
    (ws : List String) (hurl : breaksLiteral url = false) (hws : ∀ w ∈ ws, breaksLiteral w = false) :
    indexDocument engine s url ws = indexDocument other s url ws :=
  indexDocument_agree engine other s url ws (Or.inl hurl) (fun w hw => Or.inl (hws w hw))

theorem indexEntry_agree (engine other : Sqlite) (s : BuildState) (entry : String × String)
    (h : breaksLiteral entry.1 = false ∨ AgreeOnDocument engine other entry.1) :
    indexEntry engine s entry = indexEntry other s entry := by
  unfold indexEntry
  by_cases h0 : entry.2 = ""
  · simp only [h0, if_true]
  · simp only [h0, if_false]
    exact indexDocument_agree engine other s entry.1 _ h
      (fun w hw => Or.inl (token_plain w (extractWords_isToken _ w hw)))

theorem indexCorpus_agree (engine other : Sqlite) (corpus : List (String × String))
    (s : BuildState)
    (h : ∀ e ∈ corpus, breaksLiteral e.1 = false ∨ AgreeOnDocument engine other e.1) :
    indexCorpus engine s corpus = indexCorpus other s corpus := by
  unfold indexCorpus
  induction corpus generalizing s with
  | nil => rfl
  | cons e corpus ih =>
    rw [List.foldl_cons, List.foldl_cons, indexEntry_agree engine other s e (h e (by simp))]
    exact ih _ (fun x hx => h x (List.mem_cons_of_mem _ hx))

theorem buildIndex_agree (engine other : Sqlite) (db : Store) (corpus : List (String × String))
    (h : ∀ e ∈ corpus, breaksLiteral e.1 = false ∨ AgreeOnDocument engine other e.1) :
    buildIndex engine db corpus = buildIndex other db corpus := by
  unfold buildIndex
  rw [indexCorpus_agree engine other corpus _ h]

theorem splitBySpaces_loop (P : Char → Prop) (l : List Char) (hl : ∀ c ∈ l, P c)
    (s : List String × String)
    (hs : (∀ w ∈ s.1, ∀ c ∈ w.data, P c) ∧ ∀ c ∈ s.2.data, P c) :
    (∀ w ∈ (l.foldl splitBySpacesStep s).1, ∀ c ∈ w.data, P c)
    ∧ ∀ c ∈ (l.foldl splitBySpacesStep s).2.data, P c := by
  induction l generalizing s with
  | nil => exact hs
  | cons a l ih =>
    rw [List.foldl_cons]
    apply ih (fun c hc => hl c (List.mem_cons_of_mem _ hc))
    unfold splitBySpacesStep
    by_cases ha : isSpace a = true
    · simp only [ha, if_true]
      by_cases h2 : s.2 ≠ ""
      · rw [if_pos h2]
        constructor
        · intro w hw
          rcases List.mem_append.1 hw with h3 | h3
          · exact hs.1 w h3
          · rw [List.mem_singleton] at h3
            rw [h3]
            exact hs.2
        · intro c hc
          simp at hc
      · rw [if_neg h2]
        exact hs
    · simp only [ha, Bool.false_eq_true, if_false]
      constructor
      · exact hs.1
      · intro c hc
        rw [String.data_push] at hc
        rcases List.mem_append.1 hc with h3 | h3
        · exact hs.2 c h3
        · rw [List.mem_singleton] at h3
          rw [h3]
          exact hl a (by simp)

theorem splitBySpaces_chars (P : Char → Prop) (text : String) (h : ∀ c ∈ text.data, P c) :
    ∀ w ∈ splitBySpaces text, ∀ c ∈ w.data, P c := by
  have := splitBySpaces_loop P text.data h ([], "") (by simp)
  unfold splitBySpaces
  intro w hw
  by_cases h2 : (text.data.foldl splitBySpacesStep ([], "")).2 ≠ ""
  · rw [if_pos h2] at hw
    rcases List.mem_append.1 hw with h3 | h3
    · exact this.1 w h3
    · rw [List.mem_singleton] at h3
      rw [h3]
      exact this.2
  · rw [if_neg h2] at hw
    exact this.1 w hw

theorem splitBySpaces_plain (q : String) (hq : breaksLiteral q = false) :
    ∀ w ∈ splitBySpaces q, breaksLiteral w = false := by
  intro w hw
  rw [breaksLiteral_false_iff] at hq ⊢
  exact splitBySpaces_chars (fun c => c ≠ quote ∧ c ≠ nul) q hq w hw

theorem searchScore_plain (engine other : Sqlite) (db : Store) (q : String)
    (hq : breaksLiteral q = false) : searchScore engine db q = searchScore other db q :=
  searchScore_agree engine other db q (fun w hw => Or.inl (splitBySpaces_plain q hq w hw))

theorem searchResults_plain (engine other : Sqlite) (order : IterationOrder) (db : Store)
    (q : String) (hq : breaksLiteral q = false) :
    searchResults engine order db q = searchResults other order db q := by
  unfold searchResults
  rw [searchScore_plain engine other db q hq]

theorem buildIndex_plain (engine other : Sqlite) (db : Store) (corpus : List (String × String))
    (h : ∀ e ∈ corpus, breaksLiteral e.1 = false) :
    buildIndex engine db corpus = buildIndex other db corpus :=
  buildIndex_agree engine other db corpus (fun e he => Or.inl (h e he))

/-! ## Claims on the ranking -/

/-- C3: for every index state, query and iteration order of the score table
(and whatever SQLite does with a value that it does not read as a literal),
the result list holds each URL of the score table exactly once and no other URL, in
non-increasing order of accumulated score; and on the corpus A = cat dog cat,
B = dog dog the query cat dog gives the scores A = 3, B = 2 and the result
A, B. -/
theorem searchResults_ranking (engine : Sqlite) (order : IterationOrder) (db : Store)
    (q : String) :
    (searchResults engine order db q).Perm ((searchScore engine db q).map Prod.fst)
    ∧ ((searchScore engine db q).map Prod.fst).Nodup
    ∧ (searchResults engine order db q).Nodup
    ∧ (searchResults engine order db q).Pairwise
        (fun u v => scoreOf (searchScore engine db q) u ≥ scoreOf (searchScore engine db q) v)
    ∧ scoreOf (searchScore engine (buildIndex engine Store.fresh
          [("/wiki/A.html", "cat dog cat"), ("/wiki/B.html", "dog dog")]) "cat dog")
        "/wiki/A.html" = 3
    ∧ scoreOf (searchScore engine (buildIndex engine Store.fresh
          [("/wiki/A.html", "cat dog cat"), ("/wiki/B.html", "dog dog")]) "cat dog")
        "/wiki/B.html" = 2
    ∧ searchResults engine order (buildIndex engine Store.fresh
          [("/wiki/A.html", "cat dog cat"), ("/wiki/B.html", "dog dog")]) "cat dog"
        = ["/wiki/A.html", "/wiki/B.html"] := by
  have hs : searchScore engine (buildIndex engine Store.fresh
        [("/wiki/A.html", "cat dog cat"), ("/wiki/B.html", "dog dog")]) "cat dog"
      = [("/wiki/A.html", 3), ("/wiki/B.html", 2)] := by
    rw [buildIndex_plain engine Sqlite.refusing _ _ (by decide),
      searchScore_plain engine Sqlite.refusing _ _ (by decide)]
    decide
  refine ⟨searchResults_perm engine order db q, searchScore_nodup engine db q, ?_,
    searchResults_sorted engine order db q, ?_, ?_, ?_⟩
  · exact (searchResults_perm engine order db q).nodup_iff.2 (searchScore_nodup engine db q)
  · rw [hs]
    decide
  · rw [hs]
    decide
  · unfold searchResults
    rw [hs]
    rcases perm_pair _ _ _ (order.perm [("/wiki/A.html", 3), ("/wiki/B.html", 2)]) with h | h
    · rw [h]
      decide
    · rw [h]
      decide

theorem orderedInsert_rename (rename : String → String) (a : String × Int)
    (l : List (String × Int)) :
    List.orderedInsert notAfter (rename a.1, a.2) (l.map (fun e => (rename e.1, e.2)))
      = (List.orderedInsert notAfter a l).map (fun e => (rename e.1, e.2)) := by
  induction l with
  | nil => rfl
  | cons b l ih =>
    simp only [List.map_cons, List.orderedInsert]
    by_cases h : notAfter a b
    · have h2 : notAfter (rename a.1, a.2) (rename b.1, b.2) := h
      simp only [h, h2, if_true, List.map_cons]
    · have h2 : ¬ notAfter (rename a.1, a.2) (rename b.1, b.2) := h
      simp only [h, h2, if_false, List.map_cons, ih]

theorem stdSort_rename (rename : String → String) (docs : List (String × Int)) :
    stdSort (docs.map (fun e => (rename e.1, e.2)))
      = (stdSort docs).map (fun e => (rename e.1, e.2)) := by
  unfold stdSort
  induction docs with
  | nil => rfl
  | cons a docs ih =>
    simp only [List.map_cons, List.insertionSort, ih]
    exact orderedInsert_rename rename a _

/-- C9, as stated, fails: the comparator looks at the score only.  On the index
of a.html and b.html, indexed in this order and both with the text dog, the
query dog gives both URLs the score 1 and puts a.html and then b.html into the
score table; the table hands them out last inserted first, the comparator puts
neither before the other, and the result is b.html, a.html, which is not in
ascending URL order. -/
theorem tie_break_counterexample :
    (∀ engine : Sqlite,
      searchScore engine
          (buildIndex engine Store.fresh [("/wiki/a.html", "dog"), ("/wiki/b.html", "dog")])
          "dog"
        = [("/wiki/a.html", 1), ("/wiki/b.html", 1)])
    ∧ lastInsertedFirst.iterate [("/wiki/a.html", 1), ("/wiki/b.html", 1)]
        = [("/wiki/b.html", 1), ("/wiki/a.html", 1)]
    ∧ ¬ comp ("/wiki/a.html", 1) ("/wiki/b.html", 1)
    ∧ ¬ comp ("/wiki/b.html", 1) ("/wiki/a.html", 1)
    ∧ (∀ engine : Sqlite,
      searchResults engine lastInsertedFirst
          (buildIndex engine Store.fresh [("/wiki/a.html", "dog"), ("/wiki/b.html", "dog")])
          "dog"
        = ["/wiki/b.html", "/wiki/a.html"])
    ∧ ¬ TiesAscending [("/wiki/a.html", 1), ("/wiki/b.html", 1)]
        ["/wiki/b.html", "/wiki/a.html"] := by
  have hs : ∀ engine : Sqlite,
      searchScore engine
          (buildIndex engine Store.fresh [("/wiki/a.html", "dog"), ("/wiki/b.html", "dog")])
          "dog"
        = [("/wiki/a.html", 1), ("/wiki/b.html", 1)] := by
    intro engine
    rw [buildIndex_plain engine Sqlite.refusing _ _ (by decide),
      searchScore_plain engine Sqlite.refusing _ _ (by decide)]
    decide
  refine ⟨hs, by decide, by decide, by decide, ?_, by decide⟩
  intro engine
  unfold searchResults
  rw [hs engine]
  decide

/-- C9, amended: the ranking has no tie-break on the URL.  The comparator puts
neither of two entries with equal score before the other, whatever their URLs;
sorting never looks at a URL, so renaming the URLs of the entries renames the
sorted list and moves no entry; and for every index state, query and iteration
order of the score table the result is in non-increasing order of accumulated
score. -/
theorem ranking_ignores_urls :
    (∀ a b : String × Int, a.2 = b.2 → ¬ comp a b ∧ ¬ comp b a)
    ∧ (∀ (rename : String → String) (docs : List (String × Int)),
        stdSort (docs.map (fun e => (rename e.1, e.2)))
          = (stdSort docs).map (fun e => (rename e.1, e.2)))
    ∧ (∀ (engine : Sqlite) (order : IterationOrder) (db : Store) (q : String),
        (searchResults engine order db q).Pairwise
          (fun u v =>
            scoreOf (searchScore engine db q) u ≥ scoreOf (searchScore engine db q) v)) := by
  refine ⟨?_, stdSort_rename, searchResults_sorted⟩
  intro a b h
  unfold comp
  rw [h]
  exact ⟨lt_irrefl _, lt_irrefl _⟩

/-! ## Claims on the index and the query terms -/

/-- C5, on the failing input: the index of one document with the text Dog holds
the word dog, and the search splits the query DOG into the single term DOG
without lowercasing it, so the result for DOG is empty for every iteration
order, while the query dog finds the document. -/
theorem uppercase_query_finds_nothing (engine : Sqlite) (order : IterationOrder) :
    extractWords (removeHTMLTags "Dog") = ["dog"]
    ∧ splitBySpaces "DOG" = ["DOG"]
    ∧ searchResults engine order (buildIndex engine Store.fresh [("/wiki/d.html", "Dog")]) "DOG"
        = []
    ∧ searchResults engine order (buildIndex engine Store.fresh [("/wiki/d.html", "Dog")]) "dog"
        = ["/wiki/d.html"] := by
  refine ⟨by decide, by decide, ?_, ?_⟩
  · apply searchResults_of_empty
    rw [buildIndex_plain engine Sqlite.refusing _ _ (by decide),
      searchScore_plain engine Sqlite.refusing _ _ (by decide)]
    decide
  · have hs : searchScore engine (buildIndex engine Store.fresh [("/wiki/d.html", "Dog")]) "dog"
        = [("/wiki/d.html", 1)] := by
      rw [buildIndex_plain engine Sqlite.refusing _ _ (by decide),
        searchScore_plain engine Sqlite.refusing _ _ (by decide)]
      decide
    unfold searchResults
    rw [hs, List.perm_singleton.1 (order.perm [("/wiki/d.html", 1)])]
    decide

/-- C8, on the failing input: indexing the URL a.html with the words cat and
then again with the words cat cat leaves two rows for the pair (word 1,
document 1) in word_occurrences, the earlier posting next to the later one. -/
theorem reindexing_adds_a_second_posting (engine : Sqlite) :
    (indexDocument engine (indexDocument engine (emptyIndex Store.fresh) "/wiki/a.html" ["cat"])
        "/wiki/a.html" ["cat", "cat"]).database.word_occurrences
      = [(1, 1, 1), (1, 1, 2)] := by
  rw [indexDocument_plain engine Sqlite.refusing (emptyIndex Store.fresh) "/wiki/a.html" ["cat"]
      (by decide) (by decide),
    indexDocument_plain engine Sqlite.refusing _ "/wiki/a.html" ["cat", "cat"]
      (by decide) (by decide)]
  decide

/-! ## Accumulated score: proofs -/

theorem toInt32_idem (x : Int) : toInt32 (toInt32 x) = toInt32 x := by
  unfold toInt32
  omega

theorem toInt32_of_range (x : Int) (h1 : -2147483648 ≤ x) (h2 : x ≤ 2147483647) :
    toInt32 x = x := by
  unfold toInt32
  omega

theorem toInt32_congr (a b c d : Int) (h1 : toInt32 a = toInt32 c) (h2 : toInt32 b = toInt32 d) :
    toInt32 (a + b) = toInt32 (c + d) := by
  unfold toInt32 at *
  omega

theorem toInt32_sum_congr {α : Type} (l : List α) (f g : α → Int)
    (h : ∀ x ∈ l, toInt32 (f x) = toInt32 (g x)) :
    toInt32 ((l.map f).sum) = toInt32 ((l.map g).sum) := by
  induction l with
  | nil => rfl
  | cons a l ih =>
    simp only [List.map_cons, List.sum_cons]
    exact toInt32_congr _ _ _ _ (h a (by simp))
      (ih (fun x hx => h x (List.mem_cons_of_mem _ hx)))

theorem scoreOf_addScore (score : List (String × Int)) (row : String × Int) (url : String) :
    toInt32 (scoreOf (addScore score row) url)
      = toInt32 (scoreOf score url + (if row.1 = url then row.2 else 0)) := by
  induction score with
  | nil =>
    unfold addScore
    by_cases h : row.1 = url
    · rw [← h, scoreOf_cons_self, scoreOf_nil, toInt32_idem]
      simp
    · have h2 : url ≠ row.1 := fun e => h e.symm
      rw [scoreOf_cons_ne _ _ _ _ h2, scoreOf_nil]
      simp [h]
  | cons e rest ih =>
    obtain ⟨u, v⟩ := e
    unfold addScore
    by_cases h : u = row.1
    · simp only [h, if_true]
      by_cases h2 : row.1 = url
      · rw [← h2, scoreOf_cons_self, scoreOf_cons_self, toInt32_idem]
        simp
      · have h3 : url ≠ row.1 := fun e => h2 e.symm
        rw [scoreOf_cons_ne _ _ _ _ h3, scoreOf_cons_ne _ _ _ _ h3]
        simp [h2]
    · simp only [h, if_false]
      by_cases h2 : url = u
      · have h4 : ¬ row.1 = url := fun e => h (h2 ▸ e.symm)
        rw [h2, scoreOf_cons_self, scoreOf_cons_self]
        rw [h2] at h4
        simp [h4]
      · rw [scoreOf_cons_ne _ _ _ _ h2, scoreOf_cons_ne _ _ _ _ h2]
        exact ih

theorem scoreOf_foldl_addScore (rows score : List (String × Int)) (url : String) :
    toInt32 (scoreOf (rows.foldl addScore score) url)
      = toInt32 (scoreOf score url + ((rows.filter (fun r => r.1 = url)).map Prod.snd).sum) := by
  induction rows generalizing score with
  | nil => simp
  | cons r rows ih =>
    rw [List.foldl_cons, ih]
    by_cases h : r.1 = url
    · have h5 : (List.filter (fun r => decide (r.1 = url)) (r :: rows))
          = r :: List.filter (fun r => decide (r.1 = url)) rows :=
        List.filter_cons_of_pos (by simpa using h)
      rw [h5, List.map_cons, List.sum_cons, ← add_assoc]
      refine toInt32_congr _ _ _ _ ?_ rfl
      rw [scoreOf_addScore]
      simp [h]
    · have h5 : (List.filter (fun r => decide (r.1 = url)) (r :: rows))
          = List.filter (fun r => decide (r.1 = url)) rows :=
        List.filter_cons_of_neg (by simpa using h)
      rw [h5]
      refine toInt32_congr _ _ _ _ ?_ rfl
      rw [scoreOf_addScore]
      simp [h]

theorem scoreOf_searchWord (engine : Sqlite) (db : Store) (score : List (String × Int))
    (w url : String) :
    toInt32 (scoreOf (searchWord engine db score w) url)
      = toInt32 (scoreOf score url + searchedFrequency engine db w url) := by
  unfold searchWord searchedFrequency
  by_cases h : selectWordId engine db w = -1
  · simp [h]
  · simp only [ne_eq, h, not_false_eq_true, if_true]
    exact scoreOf_foldl_addScore _ _ _

theorem scoreOf_foldl_searchWord (engine : Sqlite) (db : Store) (ws : List String)
    (score : List (String × Int)) (url : String) :
    toInt32 (scoreOf (ws.foldl (searchWord engine db) score) url)
      = toInt32 (scoreOf score url
          + (ws.map (fun w => searchedFrequency engine db w url)).sum) := by
  induction ws generalizing score with
  | nil => simp
  | cons w ws ih =>
    rw [List.foldl_cons, ih, List.map_cons, List.sum_cons, ← add_assoc]
    exact toInt32_congr _ _ _ _ (scoreOf_searchWord engine db score w url) rfl

theorem addScore_wrapped (score : List (String × Int)) (row : String × Int)
    (h : ∀ e ∈ score, toInt32 e.2 = e.2) : ∀ e ∈ addScore score row, toInt32 e.2 = e.2 := by
  induction score with
  | nil =>
    intro e he
    simp only [addScore, List.mem_singleton] at he
    rw [he]
    exact toInt32_idem _
  | cons x rest ih =>
    obtain ⟨u, v⟩ := x
    have hrest : ∀ e ∈ rest, toInt32 e.2 = e.2 := fun e he => h e (List.mem_cons_of_mem _ he)
    intro e he
    unfold addScore at he
    by_cases h1 : u = row.1
    · simp only [h1, if_true, List.mem_cons] at he
      rcases he with h3 | h3
      · rw [h3]
        exact toInt32_idem _
      · exact hrest e h3
    · simp only [h1, if_false, List.mem_cons] at he
      rcases he with h3 | h3
      · rw [h3]
        exact h (u, v) (by simp)
      · exact ih hrest e h3

theorem foldl_addScore_wrapped (rows score : List (String × Int))
    (h : ∀ e ∈ score, toInt32 e.2 = e.2) :
    ∀ e ∈ rows.foldl addScore score, toInt32 e.2 = e.2 := by
  induction rows generalizing score with
  | nil => simpa using h
  | cons r rows ih =>
    rw [List.foldl_cons]
    exact ih _ (addScore_wrapped score r h)

theorem foldl_searchWord_wrapped (engine : Sqlite) (db : Store) (ws : List String)
    (score : List (String × Int)) (h : ∀ e ∈ score, toInt32 e.2 = e.2) :
    ∀ e ∈ ws.foldl (searchWord engine db) score, toInt32 e.2 = e.2 := by
  induction ws generalizing score with
  | nil => simpa using h
  | cons w ws ih =>
    rw [List.foldl_cons]
    apply ih
    unfold searchWord
    by_cases hw : selectWordId engine db w = -1
    · simpa [hw] using h
    · simp only [ne_eq, hw, not_false_eq_true, if_true]
      exact foldl_addScore_wrapped _ _ h

theorem scoreOf_zero_or_mem (score : List (String × Int)) (url : String) :
    scoreOf score url = 0 ∨ (url, scoreOf score url) ∈ score := by
  induction score with
  | nil => exact Or.inl rfl
  | cons x rest ih =>
    obtain ⟨k, v⟩ := x
    by_cases hk : url = k
    · right
      rw [hk, scoreOf_cons_self]
      simp
    · rw [scoreOf_cons_ne _ _ _ _ hk]
      rcases ih with h | h
      · exact Or.inl h
      · exact Or.inr (List.mem_cons_of_mem _ h)

theorem scoreOf_wrapped (score : List (String × Int)) (h : ∀ e ∈ score, toInt32 e.2 = e.2)
    (url : String) : toInt32 (scoreOf score url) = scoreOf score url := by
  rcases scoreOf_zero_or_mem score url with h1 | h1
  · rw [h1]
    rfl
  · exact h _ h1

theorem scoreOf_searchScore (engine : Sqlite) (db : Store) (q url : String) :
    scoreOf (searchScore engine db q) url
      = toInt32 (((splitBySpaces q).map (fun w => searchedFrequency engine db w url)).sum) := by
  have h1 := scoreOf_foldl_searchWord engine db (splitBySpaces q) [] url
  have h2 := scoreOf_wrapped _
    (foldl_searchWord_wrapped engine db (splitBySpaces q) [] (by simp)) url
  unfold searchScore
  rw [← h2, h1, scoreOf_nil, zero_add]

theorem filter_unique (rows : List (Int × String)) (w : String)
    (h : (rows.map Prod.snd).Nodup) :
    rows.filter (fun r => r.2 = w) = []
    ∨ ∃ r ∈ rows, rows.filter (fun r => r.2 = w) = [r] := by
  induction rows with
  | nil => exact Or.inl rfl
  | cons x rest ih =>
    obtain ⟨i, y⟩ := x
    simp only [List.map_cons, List.nodup_cons] at h
    by_cases hy : y = w
    · right
      have hrest : rest.filter (fun r => r.2 = w) = [] := by
        rw [List.filter_eq_nil_iff]
        intro r hr hr2
        apply h.1
        have : r.2 = w := by simpa using hr2
        rw [hy, ← this]
        exact List.mem_map_of_mem Prod.snd hr
      refine ⟨(i, y), by simp, ?_⟩
      rw [List.filter_cons_of_pos (by simpa using hy), hrest]
    · rw [List.filter_cons_of_neg (by simpa using hy)]
      rcases ih h.2 with h1 | ⟨r, hr, hr2⟩
      · exact Or.inl h1
      · exact Or.inr ⟨r, List.mem_cons_of_mem _ hr, hr2⟩

theorem joined_frequency (docs : List (Int × String)) (did f : Int) (url : String)
    (hdocs : ∀ d ∈ docs, nul ∉ d.2.data) :
    toInt32 (((((docs.filter (fun d => d.1 = did)).map
        (fun d => (cString d.2, toInt32 f))).filter (fun r => r.1 = url)).map Prod.snd).sum)
      = toInt32 (((docs.filter (fun d => d.1 = did ∧ d.2 = url)).map (fun _ => f)).sum) := by
  induction docs with
  | nil => rfl
  | cons d docs ih =>
    have hd : cString d.2 = d.2 := cString_of_no_nul d.2 (hdocs d (by simp))
    have ih2 := ih (fun x hx => hdocs x (List.mem_cons_of_mem _ hx))
    by_cases h1 : d.1 = did
    · by_cases h2 : d.2 = url
      · rw [List.filter_cons_of_pos (by simpa using h1), List.map_cons, hd,
          List.filter_cons_of_pos (by simpa using h2), List.map_cons, List.sum_cons,
          List.filter_cons_of_pos (by simp [h1, h2]), List.map_cons, List.sum_cons]
        exact toInt32_congr _ _ _ _ (toInt32_idem f) ih2
      · rw [List.filter_cons_of_pos (by simpa using h1), List.map_cons, hd,
          List.filter_cons_of_neg (by simpa using h2),
          List.filter_cons_of_neg (by simp [h2])]
        exact ih2
    · rw [List.filter_cons_of_neg (by simpa using h1),
        List.filter_cons_of_neg (by simp [h1])]
      exact ih2

theorem postings_frequency (docs : List (Int × String)) (occ : List (Int × Int × Int))
    (url : String) (hdocs : ∀ d ∈ docs, nul ∉ d.2.data) :
    toInt32 ((((occ.flatMap (fun o =>
        (docs.filter (fun d => d.1 = o.2.1)).map (fun d => (cString d.2, toInt32 o.2.2)))).filter
          (fun r => r.1 = url)).map Prod.snd).sum)
      = toInt32 ((occ.flatMap (fun o =>
          (docs.filter (fun d => d.1 = o.2.1 ∧ d.2 = url)).map (fun _ => o.2.2))).sum) := by
  induction occ with
  | nil => rfl
  | cons o occ ih =>
    rw [List.flatMap_cons, List.flatMap_cons, List.filter_append, List.map_append,
      List.sum_append, List.sum_append]
    exact toInt32_congr _ _ _ _ (joined_frequency docs o.2.1 o.2.2 url hdocs) ih

theorem searchedFrequency_eq (engine : Sqlite) (db : Store) (w url : String)
    (hw : breaksLiteral w = false) (hwords : (db.words.map Prod.snd).Nodup)
    (hids : ∀ r ∈ db.words, 1 ≤ r.1 ∧ r.1 ≤ 2147483647)
    (hurls : ∀ d ∈ db.documents, nul ∉ d.2.data) :
    toInt32 (searchedFrequency engine db w url) = toInt32 (postingFrequency db w url) := by
  unfold searchedFrequency postingFrequency selectWordId
  simp only [hw, Bool.false_eq_true, if_false]
  rcases filter_unique db.words w hwords with h | ⟨r, hr, h⟩
  · rw [h]
    simp
  · rw [h]
    have hr2 := hids r hr
    have hid : toInt32 r.1 = r.1 := toInt32_of_range _ (by omega) hr2.2
    have hne : r.1 ≠ -1 := by omega
    simp only [List.map_cons, List.map_nil, hid, ne_eq, hne, not_false_eq_true, if_true,
      List.flatMap_cons, List.flatMap_nil, List.append_nil]
    unfold selectPostings
    exact postings_frequency db.documents _ url hurls

/-! ## Claims on the accumulated score -/

/-- C2, as stated, fails: on the index of one document whose text is cat, the
query cat cat gives the document the score 2, while the sum over the distinct
terms of the query of the posting frequency is 1. -/
theorem distinct_terms_score_counterexample :
    (∀ engine : Sqlite, buildIndex engine Store.fresh [("/wiki/A.html", "cat")] = catIndex)
    ∧ splitBySpaces "cat cat" = ["cat", "cat"]
    ∧ (∀ engine : Sqlite, scoreOf (searchScore engine catIndex "cat cat") "/wiki/A.html" = 2)
    ∧ postingFrequency catIndex "cat" "/wiki/A.html" = 1
    ∧ distinctTermsScore catIndex "cat cat" "/wiki/A.html" = 1 := by
  refine ⟨?_, by decide, ?_, by decide, by decide⟩
  · intro engine
    rw [buildIndex_plain engine Sqlite.refusing _ _ (by decide)]
    decide
  · intro engine
    rw [searchScore_plain engine Sqlite.refusing _ _ (by decide)]
    decide

/-- C2, amended: for every index state in which no word stands in two rows of
words, every word identifier lies between 1 and 2^31 - 1 and no URL holds a NUL
character, and for every query without a single quote or a NUL character, the
score accumulated for a URL is, kept within 32 bits, the sum over all the terms
of the query, a repeated term counted once per occurrence, of the posting
frequency of the term in the document (0 for a term that is not in the
vocabulary); when that sum fits an int, the score is that sum. -/
theorem score_sums_every_occurrence (engine : Sqlite) (db : Store) (q url : String)
    (hq : breaksLiteral q = false) (hwords : (db.words.map Prod.snd).Nodup)
    (hids : ∀ r ∈ db.words, 1 ≤ r.1 ∧ r.1 ≤ 2147483647)
    (hurls : ∀ d ∈ db.documents, nul ∉ d.2.data) :
    scoreOf (searchScore engine db q) url = toInt32 (allTermsScore db q url)
    ∧ (-2147483648 ≤ allTermsScore db q url → allTermsScore db q url ≤ 2147483647 →
        scoreOf (searchScore engine db q) url = allTermsScore db q url) := by
  have h : scoreOf (searchScore engine db q) url = toInt32 (allTermsScore db q url) := by
    rw [scoreOf_searchScore]
    unfold allTermsScore
    apply toInt32_sum_congr
    intro w hw
    exact searchedFrequency_eq engine db w url (splitBySpaces_plain q hq w hw) hwords hids hurls
  refine ⟨h, ?_⟩
  intro h1 h2
  rw [h, toInt32_of_range _ h1 h2]

theorem score_sums_every_occurrence_witness :
    breaksLiteral "cat cat" = false
    ∧ (catIndex.words.map Prod.snd).Nodup
    ∧ (∀ r ∈ catIndex.words, 1 ≤ r.1 ∧ r.1 ≤ 2147483647)
    ∧ (∀ d ∈ catIndex.documents, nul ∉ d.2.data)
    ∧ allTermsScore catIndex "cat cat" "/wiki/A.html" = 2
    ∧ scoreOf (searchScore Sqlite.refusing catIndex "cat cat") "/wiki/A.html"
        = allTermsScore catIndex "cat cat" "/wiki/A.html" :=
  ⟨by decide, by decide, by decide, by decide, by decide,
    (score_sums_every_occurrence Sqlite.refusing catIndex "cat cat" "/wiki/A.html"
      (by decide) (by decide) (by decide) (by decide)).2 (by decide) (by decide)⟩

/-! ## Claims that fail on a value with a quote -/

/-- C1, on the failing input: the corpus holds the files named it, quote,
s.html and b.html, both with the text cat.  SQLite refuses the two statements
on documents that are assembled around the first URL; the error is printed and
indexDocument goes on with documentId -1.  The index then has no documents row
for the first URL, and the posting of cat for that file has the document
identifier -1. -/
theorem apostrophe_url_gets_no_document (engine : Sqlite)
    (hinsert : ∀ db, engine.execInsertDocument apostropheUrl db = db)
    (hselect : ∀ db, engine.execSelectDocument apostropheUrl db = (db, [])) :
    breaksLiteral apostropheUrl = true
    ∧ apostropheUrl ≠ "/wiki/b.html"
    ∧ (extractWords (removeHTMLTags "cat")).count "cat" = 1
    ∧ buildIndex engine Store.fresh [(apostropheUrl, "cat"), ("/wiki/b.html", "cat")]
        = { documents := [(1, "/wiki/b.html")], documentsSeq := 1,
            words := [(1, "cat")], wordsSeq := 1,
            word_occurrences := [(1, -1, 1), (1, 1, 1)] }
    ∧ (selectDocumentIds engine
          (buildIndex engine Store.fresh [(apostropheUrl, "cat"), ("/wiki/b.html", "cat")])
          apostropheUrl).2 = [] := by
  have hagree : AgreeOnDocument engine Sqlite.refusing apostropheUrl :=
    fun db => ⟨hinsert db, hselect db⟩
  have hcorpus : ∀ e ∈ [(apostropheUrl, "cat"), ("/wiki/b.html", "cat")],
      breaksLiteral e.1 = false ∨ AgreeOnDocument engine Sqlite.refusing e.1 := by
    intro e he
    rcases List.mem_cons.1 he with h | h
    · rw [h]
      exact Or.inr hagree
    · rw [List.mem_singleton] at h
      rw [h]
      exact Or.inl (by decide)
  refine ⟨by decide, by decide, by decide, ?_, ?_⟩
  · rw [buildIndex_agree engine Sqlite.refusing _ _ hcorpus]
    decide
  · rw [selectDocumentIds_agree engine Sqlite.refusing _ _ (Or.inr hagree),
      buildIndex_agree engine Sqlite.refusing _ _ hcorpus]
    decide

theorem apostrophe_url_gets_no_document_witness :
    (∀ db, Sqlite.refusing.execInsertDocument apostropheUrl db = db)
    ∧ (∀ db, Sqlite.refusing.execSelectDocument apostropheUrl db = (db, []))
    ∧ (buildIndex Sqlite.refusing Store.fresh
          [(apostropheUrl, "cat"), ("/wiki/b.html", "cat")]).word_occurrences
        = [(1, -1, 1), (1, 1, 1)] :=
  ⟨fun _ => rfl, fun _ => rfl,
    congrArg Store.word_occurrences
      (apostrophe_url_gets_no_document Sqlite.refusing (fun _ => rfl) (fun _ => rfl)).2.2.2.1⟩

theorem quotedUnequal_agree (engine : Sqlite)
    (h : engine.stepSelectWord quotedUnequal appleIndex = some 1) :
    ∀ w ∈ splitBySpaces quotedUnequal,
      breaksLiteral w = false
      ∨ engine.stepSelectWord w appleIndex = Sqlite.everyRow.stepSelectWord w appleIndex := by
  intro w hw
  have hsplit : splitBySpaces quotedUnequal = [quotedUnequal] := by decide
  rw [hsplit, List.mem_singleton] at hw
  rw [hw]
  right
  rw [h]
  decide

/-- C6, on the failing input: the index holds one document with the text apple,
the query is a quote, `<>` and a quote.  The query is one term and no row of
words holds it, but the text assembled around it is a condition that holds for
every row, so SQLite answers the lookup with the identifier 1 of apple, and
the result is the document although no term of the query is in the
vocabulary. -/
theorem term_outside_vocabulary_finds_document (engine : Sqlite) (order : IterationOrder)
    (h : engine.stepSelectWord quotedUnequal appleIndex = some 1) :
    buildIndex engine Store.fresh [("/wiki/A.html", "apple")] = appleIndex
    ∧ splitBySpaces quotedUnequal = [quotedUnequal]
    ∧ (∀ w ∈ splitBySpaces quotedUnequal, ∀ r ∈ appleIndex.words, r.2 ≠ w)
    ∧ (∀ w ∈ splitBySpaces quotedUnequal, postingFrequency appleIndex w "/wiki/A.html" = 0)
    ∧ searchResults engine order appleIndex quotedUnequal = ["/wiki/A.html"] := by
  refine ⟨?_, by decide, by decide, by decide, ?_⟩
  · rw [buildIndex_plain engine Sqlite.refusing _ _ (by decide)]
    decide
  · have hs : searchScore engine appleIndex quotedUnequal = [("/wiki/A.html", 1)] := by
      rw [searchScore_agree engine Sqlite.everyRow appleIndex quotedUnequal
        (quotedUnequal_agree engine h)]
      decide
    unfold searchResults
    rw [hs, List.perm_singleton.1 (order.perm [("/wiki/A.html", 1)])]
    decide

theorem term_outside_vocabulary_finds_document_witness :
    Sqlite.everyRow.stepSelectWord quotedUnequal appleIndex = some 1
    ∧ searchResults Sqlite.everyRow lastInsertedFirst appleIndex quotedUnequal
        = ["/wiki/A.html"] :=
  ⟨by decide,
    (term_outside_vocabulary_finds_document Sqlite.everyRow lastInsertedFirst
      (by decide)).2.2.2.2⟩

/-- C7, on the failing input: the query made of a quote, `<>` and a quote has
no alphanumeric character.  On the index of one document with the text apple
SQLite answers the lookup assembled around it with the identifier 1, and the
result is the document, not the empty list. -/
theorem query_without_alnum_finds_document (engine : Sqlite) (order : IterationOrder)
    (h : engine.stepSelectWord quotedUnequal appleIndex = some 1) :
    (∀ c ∈ quotedUnequal.data, c.isAlphanum = false)
    ∧ searchResults engine order (buildIndex engine Store.fresh [("/wiki/A.html", "apple")])
        quotedUnequal = ["/wiki/A.html"]
    ∧ searchResults engine order (buildIndex engine Store.fresh [("/wiki/A.html", "apple")])
        quotedUnequal ≠ [] := by
  have hdb : buildIndex engine Store.fresh [("/wiki/A.html", "apple")] = appleIndex := by
    rw [buildIndex_plain engine Sqlite.refusing _ _ (by decide)]
    decide
  have hs : searchScore engine appleIndex quotedUnequal = [("/wiki/A.html", 1)] := by
    rw [searchScore_agree engine Sqlite.everyRow appleIndex quotedUnequal
      (quotedUnequal_agree engine h)]
    decide
  have hr : searchResults engine order appleIndex quotedUnequal = ["/wiki/A.html"] := by
    unfold searchResults
    rw [hs, List.perm_singleton.1 (order.perm [("/wiki/A.html", 1)])]
    decide
  rw [hdb]
  refine ⟨by decide, hr, ?_⟩
  rw [hr]
  decide

theorem query_without_alnum_finds_document_witness :
    Sqlite.everyRow.stepSelectWord quotedUnequal appleIndex = some 1
    ∧ searchResults Sqlite.everyRow lastInsertedFirst
        (buildIndex Sqlite.everyRow Store.fresh [("/wiki/A.html", "apple")]) quotedUnequal
      = ["/wiki/A.html"] :=
  ⟨by decide,
    (query_without_alnum_finds_document Sqlite.everyRow lastInsertedFirst (by decide)).2.1⟩

end EDAoogle
